import Mathlib

/-!
Verification of the aligned-buffer, slot-pool and kernel-ABI layers of a
Rust async direct-IO foundation library (src/aligned.rs, src/pool.rs,
src/aioabi.rs, src/buf.rs).

Modelling conventions (shallow embedding):
* Bytes are `Nat` (the source works with `u8`; none of the properties here
  depend on the 256 wrap-around of a byte, only on byte identity).
* Raw memory handed out by the external aligned allocator is modelled by a
  function `junk : Nat → Nat` giving the arbitrary, uninitialized contents
  of the fresh block, and a flag `ok : Bool` telling whether the allocator
  succeeded (a null return in the source).
* A Rust panic (failed `assert!`) and an allocation failure both surface as
  `none` in the aligned-buffer constructors; the claims settled here only
  concern the success path of those constructors.  In `rdupdate`, where the
  source has no allocation and `none` can only mean a failed assertion,
  `none` models exactly a panic.
* `usize` arithmetic: the size round-up in `alloc_uninit` is computed with
  the source's bit mask over the 64-bit machine width (wrapping addition is
  written `% 2^64` explicitly); elsewhere the quantities involved are
  bounded by buffer lengths and the claims do not probe wrap-around, so
  plain `Nat` arithmetic is used.
-/

/-! ## Aligned buffers (src/aligned.rs) -/

/-- Model of `AlignedBuf`: `buf` is the allocated block's byte contents
(so the source's `len` field is `buf.length`), `align` its alignment, and
`valid` the number of valid (initialized) bytes. -/
structure AlignedBuf where
  buf : List Nat
  align : Nat
  valid : Nat
deriving DecidableEq, Repr

/-- The source's `len` field: length of the allocated block. -/
def AlignedBuf.len (self : AlignedBuf) : Nat := self.buf.length

/-- Source `fn ispower2(n: usize) -> bool` returns `(n & (n - 1)) == 0`.
(`Nat` subtraction at `n = 0` gives `0 &&& 0`, matching the wrapped
`usize` result `0 & usize::MAX = 0`.) -/
def ispower2 (n : Nat) : Bool := (n &&& (n - 1)) == 0

/-- Rust's `!` (bitwise NOT) on a 64-bit `usize` value. -/
def usizeNot (m : Nat) : Nat := 2 ^ 64 - 1 - m

/-- Model of `AlignedBuf::alloc_uninit(size, align)`.  Checks `align > 0` and
`ispower2 align` (asserts), rounds `size` up with the mask
`(size + align - 1) & !(align - 1)` over 64-bit `usize` arithmetic,
asserts `sz >= size` and `sz % align == 0`, then asks the allocator for
`sz` bytes.  `ok`/`junk` model the external allocator (see file header);
failed asserts and a null allocator result are both `none`. -/
def AlignedBuf.alloc_uninit (size align : Nat) (ok : Bool) (junk : Nat → Nat) :
    Option AlignedBuf :=
  if 0 < align ∧ ispower2 align then
    let sz := ((size + align - 1) % 2 ^ 64) &&& usizeNot (align - 1)
    if size ≤ sz ∧ sz % align = 0 then
      if ok then some { buf := (List.range sz).map junk, align := align, valid := 0 }
      else none
    else none
  else none

/-- Model of `AlignedBuf::alloc(size, align)`: `alloc_uninit` followed by
`ptr::write_bytes(b.buf, 0, b.len)` and `b.valid = b.len`. -/
def AlignedBuf.alloc (size align : Nat) (ok : Bool) (junk : Nat → Nat) :
    Option AlignedBuf :=
  match AlignedBuf.alloc_uninit size align ok junk with
  | none => none
  | some b => some { b with buf := List.replicate b.len 0, valid := b.len }

/-- Model of `AlignedBuf::from_slice(data, align)`: `alloc_uninit(data.len(), align)`,
then `copy_nonoverlapping(data, b.buf, data.len())`; if `data.len() != b.len`
it asserts `b.len > data.len()` and zero-fills the tail; finally
`b.valid = b.len`. -/
def AlignedBuf.from_slice (data : List Nat) (align : Nat) (ok : Bool) (junk : Nat → Nat) :
    Option AlignedBuf :=
  match AlignedBuf.alloc_uninit data.length align ok junk with
  | none => none
  | some b =>
    if data.length ≠ b.len then
      if data.length < b.len then
        some { b with buf := data ++ List.replicate (b.len - data.length) 0, valid := b.len }
      else none
    else
      some { b with buf := data ++ b.buf.drop data.length, valid := b.len }

/-- Model of `impl Clone for AlignedBuf::clone`.  Asserts `self.valid <= self.len`,
allocates an uninitialized block of the same size and alignment (panicking
on failure), then — exactly as the source is written — tests `b.valid > 0`
on the freshly allocated buffer `b` and only in that case copies `b.valid`
bytes from the source and sets `b.valid = self.valid`. -/
def AlignedBuf.clone (self : AlignedBuf) (ok : Bool) (junk : Nat → Nat) :
    Option AlignedBuf :=
  if self.valid ≤ self.len then
    match AlignedBuf.alloc_uninit self.len self.align ok junk with
    | none => none
    | some b =>
      if 0 < b.valid then
        some { b with buf := self.buf.take b.valid ++ b.buf.drop b.valid, valid := self.valid }
      else some b
  else none

/-- Model of `RdBuf for AlignedBuf::rdupdate(base, len)`.  Asserts
`self.valid <= self.len`; if `base <= valid && base+len > valid` it asserts
`base+len <= self.len` and sets `valid = base+len`, else leaves the buffer
unchanged.  `none` models exactly a panic (failed assert). -/
def AlignedBuf.rdupdate (self : AlignedBuf) (base len : Nat) : Option AlignedBuf :=
  if self.valid ≤ self.len then
    if base ≤ self.valid ∧ self.valid < base + len then
      if base + len ≤ self.len then some { self with valid := base + len }
      else none
    else some self
  else none

/-! ## Kernel ABI struct layout (src/aioabi.rs) -/

/-- Round `off` up to the next multiple of the alignment `a`. -/
def alignTo (off a : Nat) : Nat := (off + a - 1) / a * a

/-- C struct layout (`#[repr(C)]`): lay the fields (given as
(size, alignment) pairs in declaration order) out in order, aligning each
field's offset to its alignment, then round the end offset up to the
struct's overall alignment (the max field alignment).  Returns the
struct's size. -/
def structSize (fields : List (Nat × Nat)) : Nat :=
  let p := fields.foldl (fun acc f => (alignTo acc.1 f.2 + f.1, max acc.2 f.2)) (0, 1)
  alignTo p.1 p.2

/-- Fields of `Struct_iocb` in declaration order, with the (size, align)
of each on the reference 64-bit platform: `data: u64`, `key: u32`,
`aio_reserved1: u32`, `aio_lio_opcode: u16`, `aio_reqprio: i16`,
`aio_fildes: u32`, `aio_buf: u64`, `aio_count: u64`, `aio_offset: i64`,
`aio_reserved2: u64`, `aio_flags: u32`, `aio_resfd: u32`. -/
def iocbFields : List (Nat × Nat) :=
  [(8, 8), (4, 4), (4, 4), (2, 2), (2, 2), (4, 4), (8, 8), (8, 8), (8, 8), (8, 8), (4, 4), (4, 4)]

/-- Fields of `Struct_io_event` in declaration order: `data: u64`,
`obj: u64`, `res: i64`, `res2: i64`. -/
def ioEventFields : List (Nat × Nat) := [(8, 8), (8, 8), (8, 8), (8, 8)]

/-- C2: under C struct-layout rules on the reference 64-bit platform, the
request descriptor `Struct_iocb` occupies exactly 64 bytes and the
completion descriptor `Struct_io_event` exactly 32 bytes. -/
theorem iocb_and_io_event_sizes :
    structSize iocbFields = 64 ∧ structSize ioEventFields = 32 := by
  decide

/-! ## Size round-up arithmetic for `alloc_uninit` -/

theorem two_pow_land_self_sub_one (k : Nat) : 2 ^ k &&& (2 ^ k - 1) = 0 := by
  apply Nat.eq_of_testBit_eq
  intro i
  rw [Nat.testBit_land, Nat.testBit_two_pow, Nat.testBit_two_pow_sub_one, Nat.zero_testBit]
  by_cases h : k = i <;> simp [h]

theorem ispower2_two_pow (k : Nat) : ispower2 (2 ^ k) = true := by
  simp [ispower2, two_pow_land_self_sub_one]

/-- The source's round-up mask: for `x < 2 ^ 64` and `k ≤ 64`,
`x &&& !(2 ^ k - 1)` (NOT over 64 bits) clears the low `k` bits of `x`,
that is, rounds `x` down to a multiple of `2 ^ k`. -/
theorem land_mask_eq_div_mul (x k : Nat) (hx : x < 2 ^ 64) (hk : k ≤ 64) :
    x &&& (2 ^ 64 - 2 ^ k) = x / 2 ^ k * 2 ^ k := by
  apply Nat.eq_of_testBit_eq
  intro i
  have hm : (2 : Nat) ^ 64 - 2 ^ k = (2 ^ (64 - k) - 1) <<< k := by
    rw [Nat.shiftLeft_eq, Nat.sub_mul, one_mul, ← Nat.pow_add]
    congr 2
    omega
  have hr : x / 2 ^ k * 2 ^ k = (x >>> k) <<< k := by
    rw [Nat.shiftLeft_eq, Nat.shiftRight_eq_div_pow]
  rw [hm, hr, Nat.testBit_land, Nat.testBit_shiftLeft, Nat.testBit_shiftLeft,
    Nat.testBit_shiftRight, Nat.testBit_two_pow_sub_one]
  by_cases hik : k ≤ i
  · by_cases hi64 : i < 64
    · have h1 : i - k < 64 - k := by omega
      have h2 : k + (i - k) = i := by omega
      simp [ge_iff_le, hik, h1, h2]
    · have h1 : ¬(i - k < 64 - k) := by omega
      have h2 : x.testBit i = false := by
        apply Nat.testBit_lt_two_pow
        calc x < 2 ^ 64 := hx
        _ ≤ 2 ^ i := Nat.pow_le_pow_right (by omega) (by omega)
      have h3 : x.testBit (k + (i - k)) = false := by
        rw [show k + (i - k) = i by omega, h2]
      simp [ge_iff_le, hik, h1, h2, h3]
  · simp [ge_iff_le, hik]

/-- Characterization of a successful `alloc_uninit`. -/
theorem alloc_uninit_eq_some (size align : Nat) (ok : Bool) (junk : Nat → Nat)
    (b : AlignedBuf) (h : AlignedBuf.alloc_uninit size align ok junk = some b) :
    0 < align ∧ ispower2 align = true ∧ ok = true ∧
    b.buf = (List.range (((size + align - 1) % 2 ^ 64) &&& usizeNot (align - 1))).map junk ∧
    b.align = align ∧ b.valid = 0 ∧ size ≤ b.len ∧ b.len % align = 0 := by
  unfold AlignedBuf.alloc_uninit at h
  by_cases h1 : 0 < align ∧ ispower2 align
  · rw [if_pos h1] at h
    by_cases h2 : size ≤ ((size + align - 1) % 2 ^ 64) &&& usizeNot (align - 1) ∧
        (((size + align - 1) % 2 ^ 64) &&& usizeNot (align - 1)) % align = 0
    · rw [if_pos h2] at h
      cases ok with
      | false => simp at h
      | true =>
        rw [if_pos rfl] at h
        have hb := (Option.some.injEq _ _).mp h
        subst hb
        refine ⟨h1.1, by simpa using h1.2, rfl, rfl, rfl, rfl, ?_, ?_⟩
        · simpa [AlignedBuf.len] using h2.1
        · simpa [AlignedBuf.len] using h2.2
    · rw [if_neg h2] at h
      exact absurd h (by simp)
  · rw [if_neg h1] at h
    exact absurd h (by simp)

/-- C7: for every `size` and every power-of-two alignment `2 ^ k` (with
`k ≤ 64`, and `size + align - 1` not overflowing `usize`), a successful
`alloc_uninit(size, 2 ^ k)` returns a buffer whose total length is the
smallest multiple of `2 ^ k` that is ≥ `size`, and whose valid length
starts at 0. -/
theorem alloc_uninit_len_least_multiple (size k : Nat) (hk : k ≤ 64)
    (hno : size + 2 ^ k - 1 < 2 ^ 64) (ok : Bool) (junk : Nat → Nat) (b : AlignedBuf)
    (h : AlignedBuf.alloc_uninit size (2 ^ k) ok junk = some b) :
    b.len % 2 ^ k = 0 ∧ size ≤ b.len ∧
    (∀ m, m % 2 ^ k = 0 → size ≤ m → b.len ≤ m) ∧ b.valid = 0 := by
  obtain ⟨hal, _, hok, hbuf, _, hval, hsz1, hsz2⟩ := alloc_uninit_eq_some _ _ _ _ _ h
  refine ⟨hsz2, hsz1, ?_, hval⟩
  intro m hm hsm
  have hp : 0 < (2:Nat) ^ k := Nat.pos_pow_of_pos k (by omega)
  have hlen : b.len = (size + 2 ^ k - 1) / 2 ^ k * 2 ^ k := by
    have hl : b.len = ((size + 2 ^ k - 1) % 2 ^ 64) &&& usizeNot (2 ^ k - 1) := by
      simp [AlignedBuf.len, hbuf]
    rw [hl, Nat.mod_eq_of_lt hno]
    have hle : (2:Nat) ^ k ≤ 2 ^ 64 := Nat.pow_le_pow_right (by omega) hk
    have hmask : usizeNot (2 ^ k - 1) = 2 ^ 64 - 2 ^ k := by
      unfold usizeNot
      omega
    rw [hmask]
    exact land_mask_eq_div_mul _ k hno hk
  obtain ⟨t, ht⟩ := Nat.dvd_of_mod_eq_zero hm
  have h1 : size + 2 ^ k - 1 ≤ 2 ^ k * t + (2 ^ k - 1) := by omega
  have hq : (size + 2 ^ k - 1) / 2 ^ k ≤ t := by
    calc (size + 2 ^ k - 1) / 2 ^ k ≤ (2 ^ k * t + (2 ^ k - 1)) / 2 ^ k :=
          Nat.div_le_div_right h1
    _ = t + (2 ^ k - 1) / 2 ^ k := Nat.mul_add_div hp _ _
    _ = t := by rw [Nat.div_eq_of_lt (by omega), Nat.add_zero]
  rw [hlen, ht]
  calc (size + 2 ^ k - 1) / 2 ^ k * 2 ^ k ≤ t * 2 ^ k := Nat.mul_le_mul_right _ hq
  _ = 2 ^ k * t := Nat.mul_comm _ _

/-- The all-zero "uninitialized contents" environment used in witnesses. -/
def junkZero : Nat → Nat := fun _ => 0

/-- The buffer `alloc_uninit 16 16` returns under `junkZero`. -/
def bufRound16 : AlignedBuf := { buf := (List.range 16).map junkZero, align := 16, valid := 0 }

/-- The buffer `alloc_uninit 10 16` returns under `junkZero`. -/
def bufRound10 : AlignedBuf := { buf := (List.range 16).map junkZero, align := 16, valid := 0 }

/-- The buffer `alloc_uninit 17 16` returns under `junkZero`. -/
def bufRound17 : AlignedBuf := { buf := (List.range 32).map junkZero, align := 16, valid := 0 }

/-- Witness for C7 at the spec's three concrete inputs:
(16,16) → 16, (10,16) → 16, (17,16) → 32. -/
theorem alloc_uninit_len_least_multiple_witness :
    bufRound16.len = 16 ∧ bufRound10.len = 16 ∧ bufRound17.len = 32 ∧
    bufRound17.len % 2 ^ 4 = 0 ∧ 17 ≤ bufRound17.len ∧ bufRound17.valid = 0 := by
  have h16 := alloc_uninit_len_least_multiple 16 4 (by decide) (by decide) true junkZero
    bufRound16 (by decide)
  have h10 := alloc_uninit_len_least_multiple 10 4 (by decide) (by decide) true junkZero
    bufRound10 (by decide)
  have h17 := alloc_uninit_len_least_multiple 17 4 (by decide) (by decide) true junkZero
    bufRound17 (by decide)
  have e16 : bufRound16.len = 16 := by
    have ha := h16.2.1
    have hb := h16.2.2.1 16 (by decide) (by decide)
    omega
  have e10 : bufRound10.len = 16 := by
    have ha := h10.1
    have hb := h10.2.1
    have hc := h10.2.2.1 16 (by decide) (by decide)
    omega
  have e17 : bufRound17.len = 32 := by
    have ha := h17.1
    have hb := h17.2.1
    have hc := h17.2.2.1 32 (by decide) (by decide)
    omega
  exact ⟨e16, e10, e17, h17.1, h17.2.1, h17.2.2.2⟩

/-! ## Slot pool (src/pool.rs) -/

/-- Source `enum Slot<T>` with `Free(usize)` and `Alloc(T)`: a slot is either free, holding
the index of the next freelist entry, or holds an allocated value. -/
inductive Slot (T : Type) where
  | Free (next : Nat)
  | Alloc (val : T)
deriving DecidableEq, Repr

/-- Result of `Pool::allocidx`, mirroring Rust's `Result<usize, T>`. -/
inductive AllocRes (T : Type) where
  | Ok (idx : Nat)
  | Err (t : T)
deriving DecidableEq, Repr

/-- Source `struct Pool<T>`: the slot array, the (write-only) `freelist` field,
the count of allocated slots and the freelist cursor `next`. -/
structure Pool (T : Type) where
  pool : List (Slot T)
  freelist : Int
  used : Nat
  next : Nat
deriving DecidableEq, Repr

/-- Model of `Pool::new(size)`: asserts `size > 0` (modelled as `none`), then builds
`(1 .. size + 1).map(Slot::Free)` — slot `i` holds `Free (i + 1)` — with
`freelist = size - 1`, `used = 0`, cursor `next = 0`. -/
def Pool.new (T : Type) (size : Nat) : Option (Pool T) :=
  if 0 < size then
    some { pool := (List.range size).map (fun i => Slot.Free (i + 1)),
           freelist := (size : Int) - 1, used := 0, next := 0 }
  else none

/-- Model of `Pool::allocidx(init)`.  If the cursor is past the end, `Err(init)` with
the pool untouched; otherwise reads the slot at the cursor (panicking —
`none` — if it already holds a value), advances the cursor to its stored
link, stores `init`, and bumps `used`. -/
def Pool.allocidx {T : Type} (self : Pool T) (init : T) : Option (AllocRes T × Pool T) :=
  let idx := self.next
  if h : idx < self.pool.length then
    match self.pool.get ⟨idx, h⟩ with
    | Slot.Free nxt =>
        some (AllocRes.Ok idx,
          { self with pool := self.pool.set idx (Slot.Alloc init),
                      used := self.used + 1, next := nxt })
    | Slot.Alloc _ => none
  else some (AllocRes.Err init, self)

/-- Model of `Pool::freeidx(idx)`.  Asserts `idx < pool.len()`; replaces the slot
with `Free(next)` (link = prior cursor), decrements `used`, and if the slot
held a value returns it and makes `idx` the new cursor; panics (`none`) if
the slot was already free.  (In every reachable state with an allocated
slot `used ≥ 1`, so `Nat` subtraction in `used - 1` agrees with `usize`.) -/
def Pool.freeidx {T : Type} (self : Pool T) (idx : Nat) : Option (T × Pool T) :=
  if h : idx < self.pool.length then
    match self.pool.get ⟨idx, h⟩ with
    | Slot.Alloc v =>
        some (v, { self with pool := self.pool.set idx (Slot.Free self.next),
                             used := self.used - 1, next := idx })
    | Slot.Free _ => none
  else none

/-- Model of `Pool::freeptr(ptr)`.  The address space is abstracted as `Nat`:
`base` models `self.pool.as_ptr() as usize`, `stride` models
`size_of::<Slot<T>>()`, and `ptrAddr` the raw pointer argument.  Asserts
`ptr >= base`, then frees the index `(ptrAddr - base) / stride` (the
division rounds down, so a pointer into the middle of a slot still lands
on that slot's index). -/
def Pool.freeptr {T : Type} (self : Pool T) (base stride ptrAddr : Nat) :
    Option (T × Pool T) :=
  if base ≤ ptrAddr then
    self.freeidx ((ptrAddr - base) / stride)
  else none

/-- Model of `Pool::limit()`: the capacity (length of the slot array). -/
def Pool.limit {T : Type} (self : Pool T) : Nat := self.pool.length

/-- Model of `Pool::avail()`: `limit() - used()`. -/
def Pool.avail {T : Type} (self : Pool T) : Nat := self.limit - self.used

/-- Pool states reachable from `Pool::new` by successful `allocidx` and
`freeidx` calls. -/
inductive Reachable {T : Type} : Pool T → Prop where
  | mk_new : ∀ size p, Pool.new T size = some p → Reachable p
  | step_alloc : ∀ p init idx p', Reachable p →
      p.allocidx init = some (AllocRes.Ok idx, p') → Reachable p'
  | step_free : ∀ p idx v p', Reachable p →
      p.freeidx idx = some (v, p') → Reachable p'

/-- Forward evaluation of `allocidx` when the cursor points at a free slot. -/
theorem allocidx_of_free {T : Type} (p : Pool T) (init : T) (nxt : Nat)
    (hlt : p.next < p.pool.length) (hget : p.pool.get ⟨p.next, hlt⟩ = Slot.Free nxt) :
    p.allocidx init = some (AllocRes.Ok p.next,
      { p with pool := p.pool.set p.next (Slot.Alloc init),
               used := p.used + 1, next := nxt }) := by
  simp only [Pool.allocidx, dif_pos hlt, hget]

/-- Forward evaluation of `allocidx` when the cursor is past the end. -/
theorem allocidx_of_full {T : Type} (p : Pool T) (init : T)
    (hge : p.pool.length ≤ p.next) :
    p.allocidx init = some (AllocRes.Err init, p) := by
  simp only [Pool.allocidx, dif_neg (Nat.not_lt.mpr hge)]

/-- Inversion of a successful `allocidx`. -/
theorem allocidx_ok_inv {T : Type} (p : Pool T) (init : T) (idx : Nat) (p' : Pool T)
    (h : p.allocidx init = some (AllocRes.Ok idx, p')) :
    idx = p.next ∧ ∃ (hlt : idx < p.pool.length) (nxt : Nat),
      p.pool.get ⟨idx, hlt⟩ = Slot.Free nxt ∧
      p' = { p with pool := p.pool.set idx (Slot.Alloc init),
                    used := p.used + 1, next := nxt } := by
  simp only [Pool.allocidx] at h
  split at h
  case isTrue hlt =>
    split at h
    case h_1 nxt hget =>
      rw [Option.some.injEq, Prod.mk.injEq] at h
      obtain ⟨h1, h2⟩ := h
      rw [AllocRes.Ok.injEq] at h1
      subst h1
      exact ⟨rfl, hlt, nxt, hget, h2.symm⟩
    case h_2 w hget =>
      exact absurd h (by simp)
  case isFalse hge =>
    rw [Option.some.injEq, Prod.mk.injEq] at h
    exact absurd h.1 (by simp)

/-- Forward evaluation of `freeidx` on an allocated slot. -/
theorem freeidx_of_alloc {T : Type} (p : Pool T) (idx : Nat) (v : T)
    (hlt : idx < p.pool.length) (hget : p.pool.get ⟨idx, hlt⟩ = Slot.Alloc v) :
    p.freeidx idx = some (v,
      { p with pool := p.pool.set idx (Slot.Free p.next),
               used := p.used - 1, next := idx }) := by
  simp only [Pool.freeidx, dif_pos hlt, hget]

/-- Inversion of a successful `freeidx`. -/
theorem freeidx_some_inv {T : Type} (p : Pool T) (idx : Nat) (v : T) (p' : Pool T)
    (h : p.freeidx idx = some (v, p')) :
    ∃ (hlt : idx < p.pool.length), p.pool.get ⟨idx, hlt⟩ = Slot.Alloc v ∧
      p' = { p with pool := p.pool.set idx (Slot.Free p.next),
                    used := p.used - 1, next := idx } := by
  simp only [Pool.freeidx] at h
  split at h
  case isTrue hlt =>
    split at h
    case h_1 w hget =>
      rw [Option.some.injEq, Prod.mk.injEq] at h
      obtain ⟨h1, h2⟩ := h
      subst h1
      exact ⟨hlt, hget, h2.symm⟩
    case h_2 nxt hget =>
      exact absurd h (by simp)
  case isFalse hge =>
    exact absurd h (by simp)

/-- C4: in any reachable pool state in which slot `i` holds a value,
`freeidx i` immediately followed by `allocidx x` succeeds, returns index
`i` again, and stores `x` at slot `i` — the freelist is LIFO. -/
theorem freeidx_then_allocidx_lifo {T : Type} (p : Pool T) (i : Nat) (v x : T)
    (_hr : Reachable p) (hocc : p.pool[i]? = some (Slot.Alloc v)) :
    ∃ p' p'', p.freeidx i = some (v, p') ∧
      p'.allocidx x = some (AllocRes.Ok i, p'') ∧
      p''.pool[i]? = some (Slot.Alloc x) := by
  obtain ⟨hi, hgi⟩ := List.getElem?_eq_some.mp hocc
  have hget : p.pool.get ⟨i, hi⟩ = Slot.Alloc v := by
    simpa [List.get_eq_getElem] using hgi
  have hfree := freeidx_of_alloc p i v hi hget
  refine ⟨{ p with pool := p.pool.set i (Slot.Free p.next), used := p.used - 1, next := i },
          { pool := (p.pool.set i (Slot.Free p.next)).set i (Slot.Alloc x),
            freelist := p.freelist, used := p.used - 1 + 1, next := p.next },
          hfree, ?_, ?_⟩
  · have h2 := allocidx_of_free
      ({ p with pool := p.pool.set i (Slot.Free p.next), used := p.used - 1, next := i } : Pool T)
      x p.next (by simpa [List.length_set] using hi)
      (by simp [List.get_eq_getElem, List.getElem_set_self])
    simpa using h2
  · exact List.getElem?_set_self (by simpa [List.length_set] using hi)

/-- The pool `Pool::new(2)` returns. -/
def poolNew2 : Pool Nat :=
  { pool := [Slot.Free 1, Slot.Free 2], freelist := 1, used := 0, next := 0 }

/-- Concrete reachable pool for the C4 witness: `Pool::new(2)` followed by
`allocidx 5`, which occupies slot 0. -/
def poolLifo : Pool Nat :=
  { pool := [Slot.Alloc 5, Slot.Free 2], freelist := 1, used := 1, next := 1 }

/-- Witness for C4: in `poolLifo`, freeing slot 0 and allocating 7
immediately reuses slot 0. -/
theorem freeidx_then_allocidx_lifo_witness :
    ∃ p' p'', poolLifo.freeidx 0 = some (5, p') ∧
      p'.allocidx 7 = some (AllocRes.Ok 0, p'') ∧
      p''.pool[0]? = some (Slot.Alloc 7) :=
  freeidx_then_allocidx_lifo poolLifo 0 5 7
    (Reachable.step_alloc poolNew2 5 0 poolLifo
      (Reachable.mk_new 2 poolNew2 (by decide)) (by decide))
    (by decide)

/-- C8: freeing by raw address recovers the index of the matching
allocation.  If `allocidx` just returned index `i`, then for the modelled
address `base + i * stride + off` of the slot's content (any in-slot
payload offset `off < stride`, where `base` is the backing array's origin
and `stride` the per-slot size), `freeptr` computes the slot index
`(addr - base) / stride = i` and returns the value the allocation stored,
behaving exactly as `freeidx i`. -/
theorem freeptr_recovers_allocidx_index {T : Type} (p : Pool T) (v : T) (i : Nat)
    (p' : Pool T) (halloc : p.allocidx v = some (AllocRes.Ok i, p'))
    (base stride off : Nat) (hoff : off < stride) :
    (base + i * stride + off - base) / stride = i ∧
    ∃ p'', p'.freeptr base stride (base + i * stride + off) = some (v, p'') ∧
      p'.freeidx i = some (v, p'') := by
  have hstride : 0 < stride := by omega
  have hidx : (base + i * stride + off - base) / stride = i := by
    have h1 : base + i * stride + off - base = stride * i + off := by
      rw [Nat.mul_comm]
      omega
    rw [h1, Nat.mul_add_div hstride, Nat.div_eq_of_lt hoff, Nat.add_zero]
  obtain ⟨hieq, hlt, nxt, hget, hp'⟩ := allocidx_ok_inv p v i p' halloc
  have hlt' : i < p'.pool.length := by
    rw [hp']
    simpa [List.length_set] using hlt
  have hget' : p'.pool.get ⟨i, hlt'⟩ = Slot.Alloc v := by
    subst hp'
    simp [List.get_eq_getElem, List.getElem_set_self]
  have hfree := freeidx_of_alloc p' i v hlt' hget'
  refine ⟨hidx, _, ?_, hfree⟩
  unfold Pool.freeptr
  rw [if_pos (by omega), hidx]
  exact hfree

/-- Pool state after `poolNew2.allocidx 5` for the C8 witness. -/
def poolOne : Pool Nat :=
  { pool := [Slot.Alloc 5, Slot.Free 2], freelist := 1, used := 1, next := 1 }

/-- Witness for C8 with slot stride 16, pool base address 4096 and
payload offset 8 inside slot 0. -/
theorem freeptr_recovers_allocidx_index_witness :
    (4096 + 0 * 16 + 8 - 4096) / 16 = 0 ∧
    ∃ p'', poolOne.freeptr 4096 16 (4096 + 0 * 16 + 8) = some (5, p'') ∧
      poolOne.freeidx 0 = some (5, p'') :=
  freeptr_recovers_allocidx_index poolNew2 5 0 poolOne (by decide) 4096 16 8 (by decide)

/-- Allocate the values of `vs` one after the other with `allocidx`;
`some (indices, pool)` only when every call succeeds with an index. -/
def allocList {T : Type} (p : Pool T) (vs : List T) : Option (List Nat × Pool T) :=
  match vs with
  | [] => some ([], p)
  | v :: rest =>
    match p.allocidx v with
    | some (AllocRes.Ok i, p') =>
      match allocList p' rest with
      | some (is, p'') => some (i :: is, p'')
      | none => none
    | _ => none

/-- Unfolding `allocList` over a successful head allocation. -/
theorem allocList_cons_ok {T : Type} (p : Pool T) (v : T) (rest : List T) (i : Nat)
    (p' : Pool T) (h : p.allocidx v = some (AllocRes.Ok i, p')) :
    allocList p (v :: rest) =
      match allocList p' rest with
      | some (is, p'') => some (i :: is, p'')
      | none => none := by
  conv_lhs => unfold allocList
  rw [h]

/-- Filling lemma: from the intermediate state in which the first `k` slots
hold `front` and slots `k..n-1` are still the initial freelist, allocating
`vs` (with `k + |vs| = n`) succeeds throughout, returns indices
`k, k+1, …, n-1`, and ends in the fully occupied state with cursor `n`. -/
theorem allocList_fill {T : Type} (n : Nat) (vs : List T) :
    ∀ (k : Nat) (front : List T), front.length = k → k + vs.length = n →
    allocList
      { pool := front.map Slot.Alloc ++
          (List.range' k (n - k)).map (fun i => Slot.Free (i + 1)),
        freelist := (n : Int) - 1, used := k, next := k } vs
      = some (List.range' k vs.length,
          { pool := (front ++ vs).map Slot.Alloc, freelist := (n : Int) - 1,
            used := n, next := n }) := by
  induction vs with
  | nil =>
    intro k front hf hk
    have hkn : k = n := by simpa using hk
    subst hkn
    simp [allocList]
  | cons v rest ih =>
    intro k front hf hk
    have hk1 : k + rest.length + 1 = n := by simp at hk; omega
    have hkn : k < n := by omega
    have hsplit : n - k = (n - (k + 1)) + 1 := by omega
    have hrange : List.range' k (n - k) = k :: List.range' (k + 1) (n - (k + 1)) := by
      rw [hsplit, List.range'_succ]
    set P : Pool T :=
      { pool := front.map Slot.Alloc ++
          (List.range' k (n - k)).map (fun i => Slot.Free (i + 1)),
        freelist := (n : Int) - 1, used := k, next := k } with hP
    have hpool : P.pool = front.map Slot.Alloc ++
        (List.range' k (n - k)).map (fun i => Slot.Free (i + 1)) := by rw [hP]
    have hnext : P.next = k := by rw [hP]
    have hlenA : (front.map Slot.Alloc).length = k := by simp [hf]
    have hlen : P.pool.length = n := by
      rw [hpool]
      simp [hf, List.length_range']
      omega
    have hlt : P.next < P.pool.length := by
      rw [hnext, hlen]
      exact hkn
    have hfree0 : P.pool[k]? = some (Slot.Free (k + 1)) := by
      rw [hpool, List.getElem?_append_right (le_of_eq hlenA), hlenA, Nat.sub_self,
        hrange]
      simp
    have hget : P.pool.get ⟨P.next, hlt⟩ = Slot.Free (k + 1) := by
      have h2 : P.pool[P.next]? = some (P.pool.get ⟨P.next, hlt⟩) := by
        rw [List.get_eq_getElem]
        exact List.getElem?_eq_getElem hlt
      have h3 : P.pool[P.next]? = some (Slot.Free (k + 1)) := by
        rw [hnext]
        exact hfree0
      rw [h3] at h2
      exact (Option.some.inj h2).symm
    have halloc := allocidx_of_free P v (k + 1) hlt hget
    have hset : P.pool.set P.next (Slot.Alloc v) =
        (front ++ [v]).map Slot.Alloc ++
          (List.range' (k + 1) (n - (k + 1))).map (fun i => Slot.Free (i + 1)) := by
      rw [hnext, hpool, List.set_append_right k (Slot.Alloc v) (le_of_eq hlenA),
        hlenA, Nat.sub_self, hrange]
      simp [List.set_cons_zero]
    have hstate : ({ P with
        pool := P.pool.set P.next (Slot.Alloc v),
        used := P.used + 1,
        next := k + 1 } : Pool T) =
        { pool := (front ++ [v]).map Slot.Alloc ++
            (List.range' (k + 1) (n - (k + 1))).map (fun i => Slot.Free (i + 1)),
          freelist := (n : Int) - 1, used := k + 1, next := k + 1 } := by
      rw [Pool.mk.injEq]
      exact ⟨hset, rfl, rfl, rfl⟩
    have hih := ih (k + 1) (front ++ [v]) (by simp [hf]) (by omega)
    rw [allocList_cons_ok P v rest P.next _ halloc, hstate, hih]
    simp [List.range'_succ, List.append_assoc, hnext]

/-- C5: from a fresh pool of capacity `n > 0`, `n` consecutive `allocidx`
calls all succeed, returning indices `0, 1, …, n-1`; the `(n+1)`-th call
fails, hands the attempted value back unconsumed, and leaves the entire
pool state (slots, used count, cursor) unchanged, with `avail() = 0`
before and after the failing call (the failing call returns the very same
state `pn`). -/
theorem pool_fill_then_fail {T : Type} (n : Nat) (hn : 0 < n) (vs : List T)
    (hlen : vs.length = n) (p0 : Pool T) (h0 : Pool.new T n = some p0) (x : T) :
    ∃ pn : Pool T, allocList p0 vs = some (List.range n, pn) ∧
      pn.avail = 0 ∧ pn.allocidx x = some (AllocRes.Err x, pn) := by
  have hp0 : p0 =
      { pool := (List.range n).map (fun i => Slot.Free (i + 1)),
        freelist := (n : Int) - 1, used := 0, next := 0 } := by
    unfold Pool.new at h0
    rw [if_pos hn] at h0
    exact (Option.some.inj h0).symm
  have hfill := allocList_fill n vs 0 [] rfl (by omega)
  have hmid :
      ({ pool := ([] : List T).map Slot.Alloc ++
           (List.range' 0 (n - 0)).map (fun i => Slot.Free (i + 1)),
         freelist := (n : Int) - 1, used := 0, next := 0 } : Pool T) = p0 := by
    rw [hp0, Pool.mk.injEq]
    refine ⟨?_, rfl, rfl, rfl⟩
    simp [List.range_eq_range']
  rw [hmid] at hfill
  simp only [List.nil_append] at hfill
  rw [hlen, ← List.range_eq_range'] at hfill
  refine ⟨{ pool := vs.map Slot.Alloc,
            freelist := (n : Int) - 1, used := n, next := n },
    hfill, ?_, ?_⟩
  · simp [Pool.avail, Pool.limit, hlen]
  · exact allocidx_of_full _ x (by simp [hlen])

/-- The pool `Pool::new(1)` returns. -/
def poolNew1 : Pool Nat := { pool := [Slot.Free 1], freelist := 0, used := 0, next := 0 }

/-- Witness for C5 at capacity 1: one allocation succeeds, the next fails
with the value handed back and the state unchanged. -/
theorem pool_fill_then_fail_witness :
    ∃ pn : Pool Nat, allocList poolNew1 [42] = some (List.range 1, pn) ∧
      pn.avail = 0 ∧ pn.allocidx 7 = some (AllocRes.Err 7, pn) :=
  pool_fill_then_fail 1 (by decide) [42] rfl poolNew1 (by decide) 7

/-! ## The freelist invariant (C6) -/

/-- Does a slot hold an allocated value? -/
def Slot.isAlloc {T : Type} : Slot T → Bool
  | Slot.Alloc _ => true
  | Slot.Free _ => false

/-- Number of occupied (`Alloc`) slots of the array. -/
def countAlloc {T : Type} (pool : List (Slot T)) : Nat :=
  pool.countP Slot.isAlloc

/-- Predicate `FreeChain pool cur chain`: `chain` is exactly the sequence of indices
visited by following the freelist links from cursor `cur` until the cursor
falls outside the array (the source encodes "no next entry" as an index
one past the end). -/
inductive FreeChain {T : Type} (pool : List (Slot T)) : Nat → List Nat → Prop where
  | nil : ∀ cur, pool.length ≤ cur → FreeChain pool cur []
  | cons : ∀ cur nxt rest, pool[cur]? = some (Slot.Free nxt) →
      FreeChain pool nxt rest → FreeChain pool cur (cur :: rest)

/-- Every index on a free chain names a `Free` slot. -/
theorem FreeChain.mem_free {T : Type} {pool : List (Slot T)} {cur : Nat}
    {l : List Nat} (h : FreeChain pool cur l) :
    ∀ i ∈ l, ∃ nxt, pool[i]? = some (Slot.Free nxt) := by
  induction h with
  | nil cur hle => simp
  | cons cur nxt rest hget hrec ih =>
    intro i hi
    rcases List.mem_cons.mp hi with h1 | h2
    · subst h1
      exact ⟨nxt, hget⟩
    · exact ih i h2

/-- A free chain avoiding index `i` survives overwriting slot `i`. -/
theorem FreeChain.set_of_notMem {T : Type} {pool : List (Slot T)} {cur : Nat}
    {l : List Nat} (i : Nat) (s : Slot T) (h : FreeChain pool cur l)
    (hni : i ∉ l) : FreeChain (pool.set i s) cur l := by
  induction h with
  | nil cur hle => exact FreeChain.nil cur (by simpa [List.length_set] using hle)
  | cons cur nxt rest hget hrec ih =>
    have hne : i ≠ cur := by
      intro he
      subst he
      exact hni (List.mem_cons_self i rest)
    exact FreeChain.cons cur nxt rest
      (by rw [List.getElem?_set_ne hne]; exact hget)
      (ih (fun hm => hni (List.mem_cons_of_mem _ hm)))

/-- Strengthened inductive invariant of the pool: some duplicate-free
chain realizes the freelist from the cursor, `used` counts the occupied
slots exactly, and occupied plus chain length exhausts the capacity. -/
def PoolInv {T : Type} (p : Pool T) : Prop :=
  ∃ chain : List Nat, FreeChain p.pool p.next chain ∧ chain.Nodup ∧
    p.used = countAlloc p.pool ∧
    countAlloc p.pool + chain.length = p.pool.length

/-- The fresh pool's slots `k..n-1` form the free chain from cursor `k`. -/
theorem freeChain_new {T : Type} (n : Nat) :
    ∀ (m k : Nat), k + m = n →
      FreeChain ((List.range n).map (fun i => (Slot.Free (i + 1) : Slot T)))
        k (List.range' k m) := by
  intro m
  induction m with
  | zero =>
    intro k hk
    exact FreeChain.nil k (by simp; omega)
  | succ m ih =>
    intro k hk
    rw [List.range'_succ]
    refine FreeChain.cons k (k + 1) _ ?_ (ih (k + 1) (by omega))
    rw [List.getElem?_map, List.getElem?_range (by omega)]
    rfl

/-- A freshly wired slot array holds no allocated slot. -/
theorem countAlloc_new {T : Type} (n : Nat) :
    countAlloc ((List.range n).map (fun i => (Slot.Free (i + 1) : Slot T))) = 0 := by
  unfold countAlloc
  rw [List.countP_map, List.countP_eq_zero]
  intro a ha
  simp [Function.comp, Slot.isAlloc]

/-- The invariant holds for `Pool::new`. -/
theorem PoolInv.of_new {T : Type} (n : Nat) (p : Pool T)
    (h : Pool.new T n = some p) : PoolInv p := by
  unfold Pool.new at h
  by_cases hn : 0 < n
  · rw [if_pos hn] at h
    obtain rfl := (Option.some.inj h).symm
    refine ⟨List.range' 0 n, ?_, List.nodup_range' 0 n, ?_, ?_⟩
    · exact freeChain_new n n 0 (by omega)
    · show 0 = countAlloc _
      rw [countAlloc_new]
    · show countAlloc _ + (List.range' 0 n).length = _
      rw [countAlloc_new]
      simp [List.length_range']
  · rw [if_neg hn] at h
    exact absurd h (by simp)

/-- Operation `allocidx` preserves the invariant. -/
theorem PoolInv.step_alloc {T : Type} {p : Pool T} {init : T} {idx : Nat}
    {p' : Pool T} (hinv : PoolInv p)
    (h : p.allocidx init = some (AllocRes.Ok idx, p')) : PoolInv p' := by
  obtain ⟨chain, hchain, hnd, hused, hcount⟩ := hinv
  obtain ⟨hieq, hlt, nxt, hget, hp'⟩ := allocidx_ok_inv p init idx p' h
  subst hieq
  have hq : p.pool[p.next]? = some (Slot.Free nxt) := by
    have h1 : p.pool[p.next]? = some (p.pool.get ⟨p.next, hlt⟩) :=
      List.getElem?_eq_getElem hlt
    rw [hget] at h1
    exact h1
  have hg : p.pool[p.next] = Slot.Free nxt := by
    have h1 : p.pool[p.next]? = some (p.pool[p.next]) := List.getElem?_eq_getElem hlt
    rw [hq] at h1
    exact (Option.some.inj h1).symm
  subst hp'
  cases hchain with
  | nil hle => omega
  | cons cur2 nxt2 rest hget2 hrec =>
    rw [hq] at hget2
    injection Option.some.inj hget2 with hraw
    subst hraw
    have hnotmem : p.next ∉ rest := (List.nodup_cons.mp hnd).1
    have hca : countAlloc (p.pool.set p.next (Slot.Alloc init)) =
        countAlloc p.pool + 1 := by
      unfold countAlloc
      rw [List.countP_set _ _ _ _ hlt, hg]
      simp [Slot.isAlloc]
    refine ⟨rest, ?_, (List.nodup_cons.mp hnd).2, ?_, ?_⟩
    · exact FreeChain.set_of_notMem p.next (Slot.Alloc init) hrec hnotmem
    · show p.used + 1 = countAlloc (p.pool.set p.next (Slot.Alloc init))
      rw [hca, hused]
    · show countAlloc (p.pool.set p.next (Slot.Alloc init)) + rest.length =
        (p.pool.set p.next (Slot.Alloc init)).length
      rw [hca, List.length_set]
      rw [List.length_cons] at hcount
      omega

/-- Operation `freeidx` preserves the invariant. -/
theorem PoolInv.step_free {T : Type} {p : Pool T} {idx : Nat} {v : T}
    {p' : Pool T} (hinv : PoolInv p) (h : p.freeidx idx = some (v, p')) :
    PoolInv p' := by
  obtain ⟨chain, hchain, hnd, hused, hcount⟩ := hinv
  obtain ⟨hlt, hget, hp'⟩ := freeidx_some_inv p idx v p' h
  have hg : p.pool[idx] = Slot.Alloc v := by
    have h1 : p.pool[idx]? = some (p.pool.get ⟨idx, hlt⟩) :=
      List.getElem?_eq_getElem hlt
    have h2 : p.pool[idx]? = some (p.pool[idx]) := List.getElem?_eq_getElem hlt
    rw [h1] at h2
    rw [← Option.some.inj h2, hget]
  have hnotmem : idx ∉ chain := by
    intro hm
    obtain ⟨nn, hnn⟩ := FreeChain.mem_free hchain idx hm
    rw [List.getElem?_eq_getElem hlt, hg] at hnn
    exact absurd (Option.some.inj hnn) (by simp)
  have hused1 : 1 ≤ countAlloc p.pool := by
    unfold countAlloc
    refine List.countP_pos_iff.mpr ⟨Slot.Alloc v, hg ▸ List.getElem_mem hlt, rfl⟩
  have hca : countAlloc (p.pool.set idx (Slot.Free p.next)) =
      countAlloc p.pool - 1 := by
    unfold countAlloc
    rw [List.countP_set _ _ _ _ hlt, hg]
    simp [Slot.isAlloc]
  subst hp'
  refine ⟨idx :: chain, ?_, List.nodup_cons.mpr ⟨hnotmem, hnd⟩, ?_, ?_⟩
  · refine FreeChain.cons idx p.next chain ?_ ?_
    · exact List.getElem?_set_self hlt
    · exact FreeChain.set_of_notMem idx (Slot.Free p.next) hchain hnotmem
  · show p.used - 1 = countAlloc (p.pool.set idx (Slot.Free p.next))
    rw [hca, hused]
  · show countAlloc (p.pool.set idx (Slot.Free p.next)) + (idx :: chain).length =
      (p.pool.set idx (Slot.Free p.next)).length
    rw [hca, List.length_set, List.length_cons]
    omega

/-- C6: every pool state reachable from `new` by successful `allocidx` and
`freeidx` calls satisfies the freelist invariants: the indices reachable by
following the freelist chain from the cursor all name `Free` slots and
appear at most once in the chain; the occupied count plus the number of
reachable free slots equals the capacity; and no index is simultaneously
`Free` and `Alloc`. -/
theorem pool_freelist_invariant {T : Type} (p : Pool T) (hr : Reachable p) :
    ∃ chain : List Nat, FreeChain p.pool p.next chain ∧ chain.Nodup ∧
      (∀ i ∈ chain, ∃ nxt, p.pool[i]? = some (Slot.Free nxt)) ∧
      countAlloc p.pool + chain.length = p.pool.length ∧
      (∀ (i nxt : Nat) (w : T), ¬(p.pool[i]? = some (Slot.Free nxt) ∧
        p.pool[i]? = some (Slot.Alloc w))) := by
  have hinv : PoolInv p := by
    induction hr with
    | mk_new size q hq => exact PoolInv.of_new size q hq
    | step_alloc q init idx q' hrq hstep ih => exact ih.step_alloc hstep
    | step_free q idx v q' hrq hstep ih => exact ih.step_free hstep
  obtain ⟨chain, hchain, hnd, hused, hcount⟩ := hinv
  refine ⟨chain, hchain, hnd, FreeChain.mem_free hchain, hcount, ?_⟩
  rintro i nxt w ⟨h1, h2⟩
  rw [h1] at h2
  exact absurd (Option.some.inj h2) (by simp)

/-- Witness for C6 on the concrete reachable state `poolLifo`
(`new 2` then `allocidx 5`). -/
theorem pool_freelist_invariant_witness :
    ∃ chain : List Nat, FreeChain poolLifo.pool poolLifo.next chain ∧ chain.Nodup ∧
      (∀ i ∈ chain, ∃ nxt, poolLifo.pool[i]? = some (Slot.Free nxt)) ∧
      countAlloc poolLifo.pool + chain.length = poolLifo.pool.length ∧
      (∀ (i nxt w : Nat), ¬(poolLifo.pool[i]? = some (Slot.Free nxt) ∧
        poolLifo.pool[i]? = some (Slot.Alloc w))) :=
  pool_freelist_invariant poolLifo
    (Reachable.step_alloc poolNew2 5 0 poolLifo
      (Reachable.mk_new 2 poolNew2 (by decide)) (by decide))

/-! ## Clone, rdupdate and the initialized constructors (C1, C3, C9, C10) -/

/-- Helper: `clone` can never produce a buffer with a nonzero valid length: the
source tests `b.valid > 0` on the freshly allocated buffer (whose valid
length is always 0) instead of `self.valid`. -/
theorem clone_result_valid_zero (self : AlignedBuf) (ok : Bool) (junk : Nat → Nat)
    (b : AlignedBuf) (h : self.clone ok junk = some b) : b.valid = 0 := by
  unfold AlignedBuf.clone at h
  by_cases h1 : self.valid ≤ self.len
  · rw [if_pos h1] at h
    split at h
    · exact absurd h (by simp)
    · rename_i c hall
      obtain ⟨_, _, _, _, _, hval, _, _⟩ := alloc_uninit_eq_some _ _ _ _ _ hall
      rw [if_neg (by omega)] at h
      rw [← Option.some.inj h]
      exact hval
  · rw [if_neg h1] at h
    exact absurd h (by simp)

/-- C1 (failing input): cloning a buffer whose single byte `7` is valid
returns a buffer holding the allocator's junk byte `0` with valid length 0
— nothing is copied and the valid length is not reproduced, because the
source tests the fresh buffer's `valid` (always 0) instead of the
source buffer's. -/
theorem clone_ignores_source_valid :
    AlignedBuf.clone { buf := [7], align := 1, valid := 1 } true junkZero =
      some { buf := [0], align := 1, valid := 0 } := by
  decide

/-- C3: for every buffer satisfying the `valid ≤ len` invariant, a
`rdupdate(base, len)` call that returns normally sets the valid length to
`base + len` exactly when `base ≤ valid` and `base + len > valid` (the
reported range is contiguous with or overlaps the valid prefix), leaves it
unchanged otherwise (in particular for ranges disjoint from the valid
prefix), and never changes the contents or the alignment. -/
theorem rdupdate_frontier_rule (b : AlignedBuf) (base len : Nat)
    (hinv : b.valid ≤ b.len) (b' : AlignedBuf)
    (h : b.rdupdate base len = some b') :
    (base ≤ b.valid ∧ b.valid < base + len → b'.valid = base + len) ∧
    (¬(base ≤ b.valid ∧ b.valid < base + len) → b'.valid = b.valid) ∧
    b'.buf = b.buf ∧ b'.align = b.align := by
  unfold AlignedBuf.rdupdate at h
  rw [if_pos hinv] at h
  by_cases hc : base ≤ b.valid ∧ b.valid < base + len
  · rw [if_pos hc] at h
    by_cases h2 : base + len ≤ b.len
    · rw [if_pos h2] at h
      obtain rfl := (Option.some.inj h).symm
      exact ⟨fun _ => rfl, fun hn => absurd hc hn, rfl, rfl⟩
    · rw [if_neg h2] at h
      exact absurd h (by simp)
  · rw [if_neg hc] at h
    obtain rfl := (Option.some.inj h).symm
    exact ⟨fun hx => absurd hx hc, fun _ => rfl, rfl, rfl⟩

/-- Result of `rdupdate 0 2` on a 3-byte buffer with valid length 1. -/
def bufRd : AlignedBuf := { buf := [5, 6, 7], align := 1, valid := 2 }

/-- Witness for C3: extending the frontier from 1 to 2 on a 3-byte buffer
leaves contents and alignment unchanged. -/
theorem rdupdate_frontier_rule_witness :
    bufRd.valid = 0 + 2 ∧ bufRd.buf = [5, 6, 7] ∧ bufRd.align = 1 := by
  have h := rdupdate_frontier_rule { buf := [5, 6, 7], align := 1, valid := 1 } 0 2
    (by decide) bufRd (by decide)
  exact ⟨h.1 (by decide), h.2.2.1, h.2.2.2⟩

/-- C9: a successful `alloc(size, align)` yields an entirely zero-filled
buffer whose valid length equals its total length, and a successful
`from_slice(data, align)` yields a buffer whose first `|data|` bytes equal
`data`, whose remaining rounding-padding bytes are zero, and whose valid
length equals its total length. -/
theorem alloc_zeroed_and_from_slice_spec :
    (∀ (size align : Nat) (ok : Bool) (junk : Nat → Nat) (b : AlignedBuf),
      AlignedBuf.alloc size align ok junk = some b →
        b.buf = List.replicate b.len 0 ∧ b.valid = b.len) ∧
    (∀ (data : List Nat) (align : Nat) (ok : Bool) (junk : Nat → Nat)
      (b : AlignedBuf),
      AlignedBuf.from_slice data align ok junk = some b →
        b.buf.take data.length = data ∧
        b.buf.drop data.length = List.replicate (b.len - data.length) 0 ∧
        b.valid = b.len) := by
  constructor
  · intro size align ok junk b h
    unfold AlignedBuf.alloc at h
    split at h
    · exact absurd h (by simp)
    · rename_i c hall
      obtain rfl := (Option.some.inj h).symm
      constructor
      · show List.replicate c.len 0 = List.replicate _ 0
        simp [AlignedBuf.len]
      · simp [AlignedBuf.len]
  · intro data align ok junk b h
    unfold AlignedBuf.from_slice at h
    split at h
    · exact absurd h (by simp)
    · rename_i c hall
      obtain ⟨_, _, _, _, _, _, hsz, _⟩ := alloc_uninit_eq_some _ _ _ _ _ hall
      by_cases hne : data.length ≠ c.len
      · rw [if_pos hne, if_pos (by omega)] at h
        obtain rfl := (Option.some.inj h).symm
        have hblen : AlignedBuf.len
            { c with
              buf := data ++ List.replicate (c.len - data.length) 0,
              valid := c.len } = c.len := by
          have hcl : c.len = c.buf.length := rfl
          simp [AlignedBuf.len]
          omega
        refine ⟨?_, ?_, ?_⟩
        · show (data ++ List.replicate (c.len - data.length) 0).take data.length = data
          rw [List.take_left]
        · show (data ++ List.replicate (c.len - data.length) 0).drop data.length = _
          rw [List.drop_left, hblen]
        · show c.len = _
          rw [hblen]
      · rw [if_neg hne] at h
        push_neg at hne
        obtain rfl := (Option.some.inj h).symm
        have hdrop : c.buf.drop data.length = [] := by
          rw [hne]
          exact List.drop_length c.buf
        have hblen : AlignedBuf.len
            { c with buf := data ++ c.buf.drop data.length, valid := c.len } =
            data.length := by
          simp [AlignedBuf.len, hdrop]
        refine ⟨?_, ?_, ?_⟩
        · show (data ++ c.buf.drop data.length).take data.length = data
          rw [List.take_left]
        · show (data ++ c.buf.drop data.length).drop data.length = _
          rw [List.drop_left, hblen, Nat.sub_self, hdrop]
          rfl
        · show c.len = _
          rw [hblen, hne]

/-- The buffer `alloc 3 4` returns under `junkZero`. -/
def bufZeroed : AlignedBuf := { buf := List.replicate 4 0, align := 4, valid := 4 }

/-- The buffer `from_slice [9, 8] 4` returns under `junkZero`. -/
def bufFromSlice : AlignedBuf := { buf := [9, 8, 0, 0], align := 4, valid := 4 }

/-- Witness for C9: `alloc 3 4` gives four zero bytes all valid;
`from_slice [9, 8] 4` gives the two data bytes, two zero padding bytes,
all valid. -/
theorem alloc_zeroed_and_from_slice_spec_witness :
    (bufZeroed.buf = List.replicate bufZeroed.len 0 ∧
      bufZeroed.valid = bufZeroed.len) ∧
    (bufFromSlice.buf.take 2 = [9, 8] ∧
      bufFromSlice.buf.drop 2 = List.replicate (bufFromSlice.len - 2) 0 ∧
      bufFromSlice.valid = bufFromSlice.len) := by
  constructor
  · exact alloc_zeroed_and_from_slice_spec.1 3 4 true junkZero bufZeroed (by decide)
  · exact alloc_zeroed_and_from_slice_spec.2 [9, 8] 4 true junkZero bufFromSlice
      (by decide)

/-- C10: a `rdupdate(base, len)` call on a buffer satisfying the
`valid ≤ len` invariant whose range qualifies to extend the valid prefix
(`base ≤ valid < base + len`) but ends past the allocated length is a
fatal assertion failure (modelled `none`), not a silent truncation or
no-op; consequently every call that returns normally preserves
`valid ≤ len`. -/
theorem rdupdate_panics_past_end :
    (∀ (b : AlignedBuf) (base len : Nat), b.valid ≤ b.len →
      base ≤ b.valid → b.valid < base + len → b.len < base + len →
      b.rdupdate base len = none) ∧
    (∀ (b : AlignedBuf) (base len : Nat) (b' : AlignedBuf),
      b.rdupdate base len = some b' → b'.valid ≤ b'.len) := by
  constructor
  · intro b base len hinv h1 h2 h3
    unfold AlignedBuf.rdupdate
    rw [if_pos hinv, if_pos ⟨h1, h2⟩, if_neg (by omega)]
  · intro b base len b' h
    unfold AlignedBuf.rdupdate at h
    by_cases hinv : b.valid ≤ b.len
    · rw [if_pos hinv] at h
      by_cases hc : base ≤ b.valid ∧ b.valid < base + len
      · rw [if_pos hc] at h
        by_cases h2 : base + len ≤ b.len
        · rw [if_pos h2] at h
          obtain rfl := (Option.some.inj h).symm
          exact h2
        · rw [if_neg h2] at h
          exact absurd h (by simp)
      · rw [if_neg hc] at h
        obtain rfl := (Option.some.inj h).symm
        exact hinv
    · rw [if_neg hinv] at h
      exact absurd h (by simp)

/-- Witness for C10: with 2 allocated bytes, 1 valid, the qualifying range
`[1, 6)` ends past the buffer and panics; and a normally returning call
(the one producing `bufRd`) preserves `valid ≤ len`. -/
theorem rdupdate_panics_past_end_witness :
    AlignedBuf.rdupdate { buf := [0, 0], align := 1, valid := 1 } 1 5 = none ∧
    bufRd.valid ≤ bufRd.len :=
  ⟨rdupdate_panics_past_end.1 { buf := [0, 0], align := 1, valid := 1 } 1 5
      (by decide) (by decide) (by decide) (by decide),
    rdupdate_panics_past_end.2 { buf := [5, 6, 7], align := 1, valid := 1 } 0 2 bufRd
      (by decide)⟩
